import Mathlib

/-!
Verification of the CAN log analyzer core (`can_log_plotter3.1.py`).

The development shallowly embeds the two engines of the program:
* the log ingestion and decoding engine (`LogLoaderThread.run`), and
* the series preparation engine (`PlotterThread.run` together with the
  window handling of `CANAnalyzerApp.plot_signals`).

Python floats (timestamps and signal values) are modelled as rationals,
payload bytes as naturals, and the mutable `signals_data` dict as an
insertion-ordered association list.
-/

namespace CanAnalyzer

/-- A decoded sample: `(timestamp, value)` as appended by
`signals_data[key].append((msg.timestamp, value))`. -/
structure Sample where
  timestamp : ℚ
  value : ℚ
deriving DecidableEq, Repr

/-- The `signals_data` dictionary: signal key to list of samples, in
insertion order (Python dicts preserve insertion order). -/
abbrev Store := List (String × List Sample)

/-- The sample list currently stored under a key (`[]` when absent). -/
def samples (st : Store) (k : String) : List Sample :=
  (st.lookup k).getD []

/-- `if key not in signals_data: signals_data[key] = []` — creates the key
with an empty list when absent, appending the new entry at the end as a
Python dict does. -/
def ensureKey (st : Store) (k : String) : Store :=
  match st.lookup k with
  | some _ => st
  | none => st ++ [(k, [])]

/-- `signals_data[key].append(smp)` — appends to the list stored at the
(first, and in practice unique) entry for `k`; a no-op when `k` is absent. -/
def appendSample : Store → String → Sample → Store
  | [], _, _ => []
  | (k', l) :: rest, k, smp =>
    if k' == k then (k', l ++ [smp]) :: rest else (k', l) :: appendSample rest k smp

/-- A value of the Python dict returned by `message.decode`: a number, the
value `None`, or something not convertible by `float(...)`. -/
inductive PyValue where
  | num (q : ℚ)
  | pyNone
  | nonNumeric
deriving DecidableEq, Repr

/-- `float(value) if value is not None else 0.0`, wrapped in
`try/except (TypeError, ValueError)`: `none` is the `except` branch. -/
def toFloat : PyValue → Option ℚ
  | .num q => some q
  | .pyNone => some 0
  | .nonNumeric => none

/-- One iteration of `for signal_name, value in decoded.items()`
(lines 151-161): the key is created first, then the value is converted;
a conversion failure `continue`s without appending. -/
def processDecodedItem (ts : ℚ) (msgName : String) (store : Store)
    (item : String × PyValue) : Store :=
  match toFloat item.2 with
  | none => ensureKey store (msgName ++ "." ++ item.1)
  | some q =>
      appendSample (ensureKey store (msgName ++ "." ++ item.1))
        (msgName ++ "." ++ item.1) ⟨ts, q⟩

/-- Outcome of the schema lookup and `message.decode` call for one frame:
`KeyError` (no DBC message), a decode exception, or the decoded item list. -/
inductive DecodeResult where
  | noMessage
  | decodeFailed
  | decoded (msgName : String) (items : List (String × PyValue))

/-- Schema-mode handling of one frame (lines 141-173): a missing message or
a decode exception leaves the store untouched; otherwise each decoded item
is processed in order. -/
def processFrameSchema (store : Store) (ts : ℚ) (res : DecodeResult) : Store :=
  match res with
  | .noMessage => store
  | .decodeFailed => store
  | .decoded msgName items => items.foldl (processDecodedItem ts msgName) store

theorem lookup_append (l₁ l₂ : Store) (k : String) :
    (l₁ ++ l₂).lookup k =
      match l₁.lookup k with
      | some v => some v
      | none => l₂.lookup k := by
  induction l₁ with
  | nil => rfl
  | cons hd tl ih =>
      obtain ⟨a, b⟩ := hd
      by_cases h : k = a
      · subst h; simp [List.lookup]
      · have hb : (k == a) = false := beq_eq_false_iff_ne.mpr h
        simp [List.lookup, hb, ih]

theorem lookup_ensureKey (st : Store) (k k' : String) :
    (ensureKey st k).lookup k' =
      if k' = k then some (samples st k) else st.lookup k' := by
  unfold ensureKey
  cases hk : st.lookup k with
  | some l =>
      by_cases h : k' = k
      · subst h; simp [samples, hk]
      · simp [h]
  | none =>
      rw [lookup_append]
      by_cases h : k' = k
      · subst h; simp [samples, hk, List.lookup]
      · have hb : (k' == k) = false := beq_eq_false_iff_ne.mpr h
        cases hk' : st.lookup k' with
        | some v => simp [h]
        | none => simp [List.lookup, h, hb]

theorem samples_ensureKey (st : Store) (k k' : String) :
    samples (ensureKey st k) k' = samples st k' := by
  unfold samples
  rw [lookup_ensureKey]
  by_cases h : k' = k
  · subst h; simp [samples]
  · simp [h]

theorem lookup_appendSample (st : Store) (k : String) (smp : Sample) (l : List Sample)
    (hl : st.lookup k = some l) (k' : String) :
    (appendSample st k smp).lookup k' =
      if k' = k then some (l ++ [smp]) else st.lookup k' := by
  induction st generalizing l with
  | nil => simp [List.lookup] at hl
  | cons hd tl ih =>
      obtain ⟨a, b⟩ := hd
      by_cases hak : a = k
      · subst hak
        simp only [List.lookup, beq_self_eq_true] at hl
        have hb : b = l := by simpa using hl
        subst hb
        simp only [appendSample, beq_self_eq_true, if_true]
        by_cases h : k' = a
        · subst h; simp [List.lookup]
        · have hb2 : (k' == a) = false := beq_eq_false_iff_ne.mpr h
          simp [List.lookup, h, hb2]
      · have hbeq : (a == k) = false := beq_eq_false_iff_ne.mpr hak
        have hkeq : (k == a) = false := beq_eq_false_iff_ne.mpr (Ne.symm hak)
        have hl' : tl.lookup k = some l := by
          simp only [List.lookup, hkeq] at hl
          exact hl
        simp only [appendSample, hbeq, if_false]
        by_cases h : k' = a
        · subst h
          have hne : k' ≠ k := hak
          simp [List.lookup, hne]
        · have hb2 : (k' == a) = false := beq_eq_false_iff_ne.mpr h
          simp [List.lookup, hb2, ih l hl']

theorem lookup_processDecodedItem (ts : ℚ) (msgName : String) (st : Store)
    (item : String × PyValue) (k' : String) :
    (processDecodedItem ts msgName st item).lookup k' =
      match toFloat item.2 with
      | none =>
          if k' = msgName ++ "." ++ item.1 then some (samples st (msgName ++ "." ++ item.1))
          else st.lookup k'
      | some q =>
          if k' = msgName ++ "." ++ item.1 then
            some (samples st (msgName ++ "." ++ item.1) ++ [⟨ts, q⟩])
          else st.lookup k' := by
  unfold processDecodedItem
  cases hv : toFloat item.2 with
  | none => simp [lookup_ensureKey]
  | some q =>
      have hens : (ensureKey st (msgName ++ "." ++ item.1)).lookup (msgName ++ "." ++ item.1)
          = some (samples st (msgName ++ "." ++ item.1)) := by
        rw [lookup_ensureKey]; simp
      rw [lookup_appendSample _ _ _ _ hens k']
      by_cases h : k' = msgName ++ "." ++ item.1
      · simp [h]
      · simp [h, lookup_ensureKey]

theorem samples_processDecodedItem (ts : ℚ) (msgName : String) (st : Store)
    (item : String × PyValue) (k' : String) :
    samples (processDecodedItem ts msgName st item) k' =
      match toFloat item.2 with
      | none => samples st k'
      | some q =>
          if k' = msgName ++ "." ++ item.1 then
            samples st k' ++ [⟨ts, q⟩]
          else samples st k' := by
  unfold samples
  rw [lookup_processDecodedItem]
  cases hv : toFloat item.2 with
  | none =>
      by_cases h : k' = msgName ++ "." ++ item.1
      · subst h; simp [samples]
      · simp [h]
  | some q =>
      by_cases h : k' = msgName ++ "." ++ item.1
      · subst h; simp [samples]
      · simp [h]

/-! ### Decimal and hexadecimal rendering used by the f-string keys -/

/-- Decimal digits of `n` (most significant first), fuel-based so that it
reduces definitionally; `fuel = n + 1` always suffices. Mirrors the decimal
rendering of `f"...{i}"`. -/
def decChars : Nat → Nat → List Char
  | 0, _ => []
  | fuel + 1, n =>
      if n < 10 then [Nat.digitChar n]
      else decChars fuel (n / 10) ++ [Nat.digitChar (n % 10)]

/-- `str(n)` for a natural number. -/
def decStr (n : Nat) : String := String.mk (decChars (n + 1) n)

/-- Uppercase hexadecimal digit, as produced by Python's `{:X}` format. -/
def hexDigitChar (n : Nat) : Char :=
  if n = 0 then '0' else if n = 1 then '1' else if n = 2 then '2'
  else if n = 3 then '3' else if n = 4 then '4' else if n = 5 then '5'
  else if n = 6 then '6' else if n = 7 then '7' else if n = 8 then '8'
  else if n = 9 then '9' else if n = 10 then 'A' else if n = 11 then 'B'
  else if n = 12 then 'C' else if n = 13 then 'D' else if n = 14 then 'E'
  else if n = 15 then 'F' else '*'

/-- Uppercase hexadecimal digits of `n` (most significant first). -/
def hexChars : Nat → Nat → List Char
  | 0, _ => []
  | fuel + 1, n =>
      if n < 16 then [hexDigitChar n]
      else hexChars fuel (n / 16) ++ [hexDigitChar (n % 16)]

/-- `f"{n:X}"` for a natural number. -/
def hexStr (n : Nat) : String := String.mk (hexChars (n + 1) n)

/-- One step of reading a decimal string back into a number. -/
def decStep (a : Nat) (c : Char) : Nat := a * 10 + (c.toNat - 48)

theorem digitChar_toNat : ∀ n, n < 10 → (Nat.digitChar n).toNat = 48 + n := by
  decide

theorem foldl_decStep_decChars :
    ∀ (f n acc : Nat), n < 10 ^ f →
      List.foldl decStep acc (decChars (f + 1) n) =
        acc * 10 ^ (decChars (f + 1) n).length + n := by
  intro f
  induction f with
  | zero =>
      intro n acc hn
      have hn0 : n = 0 := by omega
      subst hn0
      simp [decChars, decStep, List.foldl, digitChar_toNat 0 (by norm_num)]
  | succ g ih =>
      intro n acc hn
      by_cases hsmall : n < 10
      · simp [decChars, hsmall, decStep, List.foldl, digitChar_toNat n hsmall]
      · have hdiv : n / 10 < 10 ^ g := by
          have h10 : 0 < 10 := by norm_num
          rw [Nat.div_lt_iff_lt_mul h10]
          calc n < 10 ^ (g + 1) := hn
            _ = 10 ^ g * 10 := by rw [pow_succ]
        have hrec : decChars (g + 1 + 1) n
            = decChars (g + 1) (n / 10) ++ [Nat.digitChar (n % 10)] := by
          simp [decChars, hsmall]
        rw [hrec, List.foldl_append, ih (n / 10) acc hdiv]
        have hmod : n % 10 < 10 := Nat.mod_lt n (by norm_num)
        simp [decStep, List.foldl, digitChar_toNat _ hmod, List.length_append]
        have hdm : 10 * (n / 10) + n % 10 = n := Nat.div_add_mod n 10
        rw [pow_succ]
        ring_nf
        omega

theorem decChars_inj {m n : Nat} (h : decChars (m + 1) m = decChars (n + 1) n) :
    m = n := by
  have hm : m < 10 ^ m := Nat.lt_pow_self (by norm_num) m
  have hn : n < 10 ^ n := Nat.lt_pow_self (by norm_num) n
  have h1 := foldl_decStep_decChars m m 0 hm
  have h2 := foldl_decStep_decChars n n 0 hn
  rw [h] at h1
  rw [h1] at h2
  omega

/-! ### Schema-less decoding (lines 174-179) -/

/-- One recorded frame (`msg_data`, lines 132-140). -/
structure Frame where
  timestamp : ℚ
  arbitration_id : Nat
  data : List Nat
  dlc : Nat
  channel : Nat
  is_fd : Bool
  bitrate_switch : Bool

/-- The key `f"ID_0x{msg.arbitration_id:X}.Byte{i}"`. -/
def byteKey (ident i : Nat) : String :=
  "ID_0x" ++ hexStr ident ++ ".Byte" ++ decStr i

theorem byteKey_inj {ident i j : Nat} (h : byteKey ident i = byteKey ident j) :
    i = j := by
  have hdata := congrArg String.data h
  have hsplit : ∀ m : Nat,
      (byteKey ident m).data
        = ("ID_0x" ++ hexStr ident ++ ".Byte").data ++ decChars (m + 1) m := by
    intro m
    rfl
  rw [hsplit i, hsplit j] at hdata
  exact decChars_inj (List.append_cancel_left hdata)

/-- The loop body of `for i in range(msg.dlc)` over a given index list: the
key is created, then `msg.data[i]` is read (an out-of-range index raises
`IndexError`, aborting the whole load), and the raw byte is appended with no
scaling. -/
def processBytes (ident : Nat) (ts : ℚ) (data : List Nat) :
    List Nat → Store → Except String Store
  | [], st => .ok st
  | i :: rest, st =>
      match data.get? i with
      | none => .error "IndexError"
      | some b =>
          processBytes ident ts data rest
            (appendSample (ensureKey st (byteKey ident i)) (byteKey ident i)
              ⟨ts, (b : ℚ)⟩)

/-- Schema-less handling of one frame (lines 174-179). -/
def processFrameRaw (st : Store) (f : Frame) : Except String Store :=
  processBytes f.arbitration_id f.timestamp f.data (List.range f.dlc) st

/-! ### The full ingestion loop (`LogLoaderThread.run`) -/

/-- The per-frame decode dispatch (line 141): schema mode when a DBC is
loaded, else raw bytes. -/
def decodeStep (db : Option (Frame → DecodeResult)) (st : Store) (f : Frame) :
    Except String Store :=
  match db with
  | some d => .ok (processFrameSchema st f.timestamp (d f))
  | none => processFrameRaw st f

/-- The main loop over frames (lines 131-184): decode each frame, count it,
and emit `min(100, int(processed / total * 100))` when the line-count
estimate `total` is positive. The float quotient is modelled exactly as a
rational, whose truncation is natural-number division. -/
def loaderFrames (db : Option (Frame → DecodeResult)) (total : Nat) :
    List Frame → Store → Nat → List Nat → Except String (Store × List Nat)
  | [], st, _, ps => .ok (st, ps)
  | f :: rest, st, p, ps =>
      match decodeStep db st f with
      | .error e => .error e
      | .ok st' =>
          loaderFrames db total rest st' (p + 1)
            (ps ++ (if 0 < total then [min 100 ((p + 1) * 100 / total)] else []))

/-- `LogLoaderThread.run` after the reader is opened: returns the frame
table, the signal-series mapping (every accumulated key is kept by the
DataFrame conversion at lines 187-188, including empty ones), and the list
of emitted progress values. -/
def loaderRun (frames : List Frame) (db : Option (Frame → DecodeResult))
    (total : Nat) : Except String (List Frame × Store × List Nat) :=
  match loaderFrames db total frames [] 0 [] with
  | .ok (st, ps) => .ok (frames, st, ps)
  | .error e => .error e

/-! ### Series preparation engine (`PlotterThread.run`, `plot_signals`) -/

/-- `signal.replace('[PDU] ', '')` on the character list, fuel-based
(Python `str.replace` removes every occurrence, scanning left to right). -/
def stripPDUAux : Nat → List Char → List Char
  | 0, cs => cs
  | _ + 1, [] => []
  | fuel + 1, '[' :: 'P' :: 'D' :: 'U' :: ']' :: ' ' :: rest => stripPDUAux fuel rest
  | fuel + 1, c :: cs => c :: stripPDUAux fuel cs

/-- `signal.replace('[PDU] ', '')` (line 220 / 235 / 968). -/
def stripPDU (s : String) : String := String.mk (stripPDUAux s.data.length s.data)

/-- `data[(data['timestamp'] >= start_time) & (data['timestamp'] <= end_time)]`
(lines 242-243): row filter, inclusive at both ends, preserving row order. -/
def filterWindow (s e : ℚ) (l : List Sample) : List Sample :=
  l.filter fun smp => decide (s ≤ smp.timestamp) && decide (smp.timestamp ≤ e)

/-- `np.min` over a value sequence (`None` on empty). -/
def listMin : List ℚ → Option ℚ
  | [] => none
  | x :: xs => some (xs.foldl min x)

/-- `np.max` over a value sequence (`None` on empty). -/
def listMax : List ℚ → Option ℚ
  | [] => none
  | x :: xs => some (xs.foldl max x)

/-- `np.mean` over a value sequence (`None` on empty). -/
def listMean : List ℚ → Option ℚ
  | [] => none
  | x :: xs => some ((x :: xs).sum / (x :: xs).length)

/-- Lines 251-255: when normalization is requested and the sequence is
non-empty, compute min and max and rescale only when `max > min`. -/
def normalizeVals (normalize : Bool) (vs : List ℚ) : List ℚ :=
  match vs with
  | [] => vs
  | x :: xs =>
      if normalize then
        if xs.foldl min x < xs.foldl max x then
          (x :: xs).map fun v => (v - xs.foldl min x) / (xs.foldl max x - xs.foldl min x)
        else vs
      else vs

/-- One entry of `plot_data` (lines 257-266), without the display style. -/
structure PlotSeries where
  timestamps : List ℚ
  values : List ℚ
  statsMin : Option ℚ
  statsMax : Option ℚ
  statsMean : Option ℚ
deriving DecidableEq, Repr

/-- Lines 234-267 for a single selected signal: strip the display prefix,
skip the signal when its key is absent or its filtered rows are empty,
otherwise normalize and compute stats. -/
def prepareSignal (store : Store) (s e : ℚ) (normalize : Bool) (sig : String) :
    Option (String × PlotSeries) :=
  match store.lookup (stripPDU sig) with
  | none => none
  | some data =>
      match filterWindow s e data with
      | [] => none
      | x :: xs =>
          some (stripPDU sig,
            { timestamps := (x :: xs).map Sample.timestamp
              values := normalizeVals normalize ((x :: xs).map Sample.value)
              statsMin := listMin (normalizeVals normalize ((x :: xs).map Sample.value))
              statsMax := listMax (normalizeVals normalize ((x :: xs).map Sample.value))
              statsMean := listMean (normalizeVals normalize ((x :: xs).map Sample.value)) })

/-- `PlotterThread.run` with an explicit window: build `plot_data` over the
selection and raise `ValueError` when it ends up empty (lines 269-270). -/
def plotterRunWindowed (store : Store) (sel : List String) (s e : ℚ)
    (normalize : Bool) : Except String (List (String × PlotSeries)) :=
  match sel.filterMap (prepareSignal store s e normalize) with
  | [] => .error "No valid data to plot for selected signals"
  | pd => .ok pd

/-- The stored series for a signal key (`self.signals_data[signal]`; the
callers below only use it on keys known to be present). -/
def seriesOf (store : Store) (sig : String) : List Sample :=
  (store.lookup sig).getD []

/-- `all_timestamps` accumulated by `extend` over the selected signals
(lines 1021-1023 and 218-224). -/
def allTimestamps (store : Store) (sel : List String) : List ℚ :=
  sel.foldl (fun acc sig => acc ++ (seriesOf store sig).map Sample.timestamp) []

/-- `PlotterThread.run` including the full-log branch (lines 217-232):
with no window, the effective window is the min/max timestamp over the
selection, failing when no selected signal has data. -/
def plotterRun (store : Store) (sel : List String) (timeRange : Option (ℚ × ℚ))
    (normalize : Bool) : Except String (List (String × PlotSeries)) :=
  match timeRange with
  | some (s, e) => plotterRunWindowed store sel s e normalize
  | none =>
      match allTimestamps store sel with
      | [] => .error "No data available for selected signals"
      | x :: xs => plotterRunWindowed store sel (xs.foldl min x) (xs.foldl max x) normalize

/-- Lines 1010-1031 of `plot_signals`: check whether the custom window
holds data for any valid signal; when not, substitute the full range of
the union of the selected signals' series (once — there is no loop), or
give up when the union itself is empty. -/
def resolveCustomWindow (store : Store) (valid : List String) (s e : ℚ) :
    Option (ℚ × ℚ) :=
  if valid.any (fun sig => !(filterWindow s e (seriesOf store sig)).isEmpty) then
    some (s, e)
  else
    match allTimestamps store valid with
    | [] => none
    | x :: xs => some (xs.foldl min x, xs.foldl max x)

/-- What `plot_signals` does after validating the selection: either reject
with a warning dialog (no `PlotterThread` is started) or launch the
preparation unit with the resolved time range. -/
inductive PlotOutcome where
  | rejected (warning : String)
  | launched (timeRange : Option (ℚ × ℚ))
deriving DecidableEq

/-- Lines 1003-1031: the custom-window guard of `plot_signals`. The store
is returned unchanged alongside the outcome — this code path never mutates
`self.log_data` or `self.signals_data`. -/
def plotSignalsGuard (store : Store) (valid : List String) (custom : Option (ℚ × ℚ)) :
    PlotOutcome × Store :=
  match custom with
  | none => (.launched none, store)
  | some (s, e) =>
      if s ≥ e then (.rejected "Start time must be less than end time!", store)
      else
        match resolveCustomWindow store valid s e with
        | none => (.rejected "No data points available for selected signals!", store)
        | some w => (.launched (some w), store)

/-! ### Spec-modelled signal extraction (for claim C8)

The per-signal bit extraction is performed by the external `cantools`
library (`message.decode(msg.data, ..., allow_truncated=True, ...)`,
line 148), whose source is not part of this repository. -/

/-- Bit layout and scaling of one signal of a message schema (§3 of the
spec; multiplexing is irrelevant to the truncation behaviour). -/
structure SignalSchema where
  name : String
  start_bit : Nat
  bit_length : Nat
  scale : ℚ
  offset : ℚ

/-- The payload as one natural number, little-endian byte order. -/
def payloadNat (data : List Nat) : Nat :=
  data.foldr (fun b acc => b % 256 + 256 * acc) 0

/-- The raw unsigned bit field of a signal. -/
def rawValue (data : List Nat) (s : SignalSchema) : Nat :=
  (payloadNat data >>> s.start_bit) % 2 ^ s.bit_length

/-- Modelled from the spec: the external `cantools` `message.decode` with
`allow_truncated=True` decodes each signal whose bit range lies inside the
payload as `raw * scale + offset` (§4.2 steps 1 and 3) and silently skips a
signal whose bit range exceeds the payload length. -/
def decodeSignal (data : List Nat) (s : SignalSchema) : Option (String × PyValue) :=
  if s.start_bit + s.bit_length ≤ 8 * data.length then
    some (s.name, .num ((rawValue data s : ℚ) * s.scale + s.offset))
  else none

/-- Modelled from the spec: the decoded item dict of one frame, one entry
per decodable signal, in schema order. -/
def decodeMessage (data : List Nat) (sigs : List SignalSchema) :
    List (String × PyValue) :=
  sigs.filterMap (decodeSignal data)

/-! ### Helper lemmas about the `min`/`max` folds -/

theorem foldl_min_le_init (xs : List ℚ) : ∀ x : ℚ, xs.foldl min x ≤ x := by
  induction xs with
  | nil => intro x; exact le_refl x
  | cons a l ih =>
      intro x
      calc l.foldl min (min x a) ≤ min x a := ih (min x a)
        _ ≤ x := min_le_left x a

theorem foldl_min_le_mem (xs : List ℚ) :
    ∀ x t : ℚ, t ∈ x :: xs → xs.foldl min x ≤ t := by
  induction xs with
  | nil =>
      intro x t ht
      have : t = x := by simpa using ht
      subst this
      exact le_refl t
  | cons a l ih =>
      intro x t ht
      rcases List.mem_cons.mp ht with hx | hal
      · subst hx
        calc (a :: l).foldl min t = l.foldl min (min t a) := rfl
          _ ≤ min t a := foldl_min_le_init l (min t a)
          _ ≤ t := min_le_left t a
      · rcases List.mem_cons.mp hal with ha | hl
        · subst ha
          calc l.foldl min (min x t) ≤ min x t := foldl_min_le_init l (min x t)
            _ ≤ t := min_le_right x t
        · exact ih (min x a) t (List.mem_cons_of_mem _ hl)

theorem foldl_min_mem (xs : List ℚ) : ∀ x : ℚ, xs.foldl min x ∈ x :: xs := by
  induction xs with
  | nil => intro x; simp
  | cons a l ih =>
      intro x
      have h := ih (min x a)
      rcases List.mem_cons.mp h with hmin | hl
      · rcases min_choice x a with hx | ha
        · rw [show (a :: l).foldl min x = l.foldl min (min x a) from rfl, hmin, hx]
          exact List.mem_cons_self x (a :: l)
        · rw [show (a :: l).foldl min x = l.foldl min (min x a) from rfl, hmin, ha]
          exact List.mem_cons_of_mem _ (List.mem_cons_self a l)
      · exact List.mem_cons_of_mem _ (List.mem_cons_of_mem _ hl)

theorem le_foldl_max_init (xs : List ℚ) : ∀ x : ℚ, x ≤ xs.foldl max x := by
  induction xs with
  | nil => intro x; exact le_refl x
  | cons a l ih =>
      intro x
      calc x ≤ max x a := le_max_left x a
        _ ≤ l.foldl max (max x a) := ih (max x a)

theorem mem_le_foldl_max (xs : List ℚ) :
    ∀ x t : ℚ, t ∈ x :: xs → t ≤ xs.foldl max x := by
  induction xs with
  | nil =>
      intro x t ht
      have : t = x := by simpa using ht
      subst this
      exact le_refl t
  | cons a l ih =>
      intro x t ht
      rcases List.mem_cons.mp ht with hx | hal
      · subst hx
        calc t ≤ max t a := le_max_left t a
          _ ≤ l.foldl max (max t a) := le_foldl_max_init l (max t a)
      · rcases List.mem_cons.mp hal with ha | hl
        · subst ha
          calc t ≤ max x t := le_max_right x t
            _ ≤ l.foldl max (max x t) := le_foldl_max_init l (max x t)
        · exact ih (max x a) t (List.mem_cons_of_mem _ hl)

theorem foldl_max_mem (xs : List ℚ) : ∀ x : ℚ, xs.foldl max x ∈ x :: xs := by
  induction xs with
  | nil => intro x; simp
  | cons a l ih =>
      intro x
      have h := ih (max x a)
      rcases List.mem_cons.mp h with hmax | hl
      · rcases max_choice x a with hx | ha
        · rw [show (a :: l).foldl max x = l.foldl max (max x a) from rfl, hmax, hx]
          exact List.mem_cons_self x (a :: l)
        · rw [show (a :: l).foldl max x = l.foldl max (max x a) from rfl, hmax, ha]
          exact List.mem_cons_of_mem _ (List.mem_cons_self a l)
      · exact List.mem_cons_of_mem _ (List.mem_cons_of_mem _ hl)

/-- Claim C4: with `normalize=true`, a filtered value sequence with more
than one distinct value is rescaled pointwise to
`(v - min) / (max - min)` (where `xs.foldl min x` / `xs.foldl max x` are
proved below to be the minimum and maximum of the sequence), while a
sequence whose values are all equal (`max == min`) is returned completely
unchanged — the rescaling (and hence the division by `max - min = 0` that
would produce `NaN`) never happens in that case. -/
theorem normalize_rescales_iff_two_distinct (x : ℚ) (xs : List ℚ) :
    ((∃ a ∈ x :: xs, ∃ b ∈ x :: xs, a ≠ b) →
      xs.foldl min x < xs.foldl max x ∧
      normalizeVals true (x :: xs) =
        (x :: xs).map fun v =>
          (v - xs.foldl min x) / (xs.foldl max x - xs.foldl min x))
    ∧ ((∀ a ∈ x :: xs, ∀ b ∈ x :: xs, a = b) →
        normalizeVals true (x :: xs) = x :: xs)
    ∧ (xs.foldl min x ∈ x :: xs ∧ ∀ a ∈ x :: xs, xs.foldl min x ≤ a)
    ∧ (xs.foldl max x ∈ x :: xs ∧ ∀ a ∈ x :: xs, a ≤ xs.foldl max x) := by
  refine ⟨?_, ?_, ⟨foldl_min_mem xs x, fun a ha => foldl_min_le_mem xs x a ha⟩,
    ⟨foldl_max_mem xs x, fun a ha => mem_le_foldl_max xs x a ha⟩⟩
  · rintro ⟨a, ha, b, hb, hab⟩
    have hlt : xs.foldl min x < xs.foldl max x := by
      rcases lt_or_gt_of_ne hab with h | h
      · calc xs.foldl min x ≤ a := foldl_min_le_mem xs x a ha
          _ < b := h
          _ ≤ xs.foldl max x := mem_le_foldl_max xs x b hb
      · calc xs.foldl min x ≤ b := foldl_min_le_mem xs x b hb
          _ < a := h
          _ ≤ xs.foldl max x := mem_le_foldl_max xs x a ha
    exact ⟨hlt, by simp [normalizeVals, hlt]⟩
  · intro hall
    have hmn : xs.foldl min x = x := hall _ (foldl_min_mem xs x) x (List.mem_cons_self x xs)
    have hmx : xs.foldl max x = x := hall _ (foldl_max_mem xs x) x (List.mem_cons_self x xs)
    have : ¬ xs.foldl min x < xs.foldl max x := by rw [hmn, hmx]; exact lt_irrefl x
    simp [normalizeVals, this]

/-- Witness for C4: the constant series `[5,5,5]` is left unchanged, and a
two-valued series `[0,2]` is rescaled to `[0,1]`. -/
theorem normalize_rescales_iff_two_distinct_witness :
    normalizeVals true [(5 : ℚ), 5, 5] = [5, 5, 5] ∧
    normalizeVals true [(0 : ℚ), 2] = [0, 1] := by
  constructor
  · exact (normalize_rescales_iff_two_distinct 5 [5, 5]).2.1 (by decide)
  · rw [((normalize_rescales_iff_two_distinct 0 [2]).1 (by decide)).2]
    norm_num

/-- Claim C7: for a resolved signal key and window `[start, end]`, series
preparation keeps exactly the samples with `start <= t <= end` (inclusive
at both ends), the survivors stay in original append order (the filtered
list is a sublist of the stored one, never re-sorted), and the prepared
output for a resolved key is exactly the filtered timestamps and values in
that order. -/
theorem filter_window_inclusive_keeps_order (s e : ℚ) (l : List Sample) :
    (∀ smp, smp ∈ filterWindow s e l ↔
        smp ∈ l ∧ s ≤ smp.timestamp ∧ smp.timestamp ≤ e)
    ∧ (filterWindow s e l).Sublist l
    ∧ (∀ (st : Store) (sig : String) (d : List Sample),
        st.lookup (stripPDU sig) = some d →
        ∀ x xs, filterWindow s e d = x :: xs →
          prepareSignal st s e false sig =
            some (stripPDU sig,
              { timestamps := (x :: xs).map Sample.timestamp
                values := (x :: xs).map Sample.value
                statsMin := listMin ((x :: xs).map Sample.value)
                statsMax := listMax ((x :: xs).map Sample.value)
                statsMean := listMean ((x :: xs).map Sample.value) })) := by
  refine ⟨?_, List.filter_sublist l, ?_⟩
  · intro smp
    simp [filterWindow, List.mem_filter]
  · intro st sig d hl x xs hf
    simp [prepareSignal, hl, hf, normalizeVals]

/-- Witness for C7: a concrete store and window `[1,2]`; the sample at
timestamp 5 is dropped, both endpoints are kept, order is preserved. -/
theorem filter_window_inclusive_keeps_order_witness :
    prepareSignal [("A", [⟨1, 10⟩, ⟨2, 20⟩, ⟨5, 50⟩])] 1 2 false "A" =
      some ("A",
        { timestamps := [1, 2], values := [10, 20],
          statsMin := some 10, statsMax := some 20, statsMean := some 15 }) := by
  have h := (filter_window_inclusive_keeps_order 1 2
      [⟨1, 10⟩, ⟨2, 20⟩, ⟨5, 50⟩]).2.2
      [("A", [⟨1, 10⟩, ⟨2, 20⟩, ⟨5, 50⟩])] "A"
      [⟨1, 10⟩, ⟨2, 20⟩, ⟨5, 50⟩] rfl ⟨1, 10⟩ [⟨2, 20⟩] (by decide)
  rw [h]
  have hs : stripPDU "A" = "A" := rfl
  rw [hs]
  norm_num [listMin, listMax, listMean, min_def, max_def]

/-- Claim C5: a signal whose key is absent or whose filtered rows are empty
is omitted from the prepared output without error (its `prepareSignal` is
`none`), every signal that does resolve to data appears in the output, and
the run fails with the no-data error exactly when every selected signal
resolves to no data. -/
theorem prepare_skips_empty_fails_only_when_all_empty (store : Store)
    (sel : List String) (s e : ℚ) (n : Bool) :
    (∀ sig, prepareSignal store s e n sig = none ↔
        store.lookup (stripPDU sig) = none ∨
        ∃ d, store.lookup (stripPDU sig) = some d ∧ filterWindow s e d = [])
    ∧ ((∀ sig ∈ sel, prepareSignal store s e n sig = none) →
        plotterRunWindowed store sel s e n =
          .error "No valid data to plot for selected signals")
    ∧ (∀ sig ∈ sel, ∀ p, prepareSignal store s e n sig = some p →
        ∃ m, plotterRunWindowed store sel s e n = .ok m ∧ p ∈ m) := by
  refine ⟨?_, ?_, ?_⟩
  · intro sig
    cases hl : store.lookup (stripPDU sig) with
    | none => simp [prepareSignal, hl]
    | some d =>
        cases hf : filterWindow s e d with
        | nil => simp [prepareSignal, hl, hf]
        | cons x xs => simp [prepareSignal, hl, hf]
  · intro h
    have hnil : sel.filterMap (prepareSignal store s e n) = [] :=
      List.filterMap_eq_nil_iff.mpr h
    simp [plotterRunWindowed, hnil]
  · intro sig hsig p hp
    have hmem : p ∈ sel.filterMap (prepareSignal store s e n) :=
      List.mem_filterMap.mpr ⟨sig, hsig, hp⟩
    cases hm : sel.filterMap (prepareSignal store s e n) with
    | nil => rw [hm] at hmem; cases hmem
    | cons y ys =>
        refine ⟨y :: ys, ?_, hm ▸ hmem⟩
        simp [plotterRunWindowed, hm]

/-- Witness for C5: signal `B`'s only sample lies outside the window `[0,1]`
so it is omitted, while `A` is still returned and the call succeeds. -/
theorem prepare_skips_empty_witness :
    ∃ m, plotterRunWindowed [("A", [⟨0, 1⟩]), ("B", [⟨5, 2⟩])] ["A", "B"]
        0 1 false = .ok m ∧
      ("A", ({ timestamps := [0], values := [1], statsMin := some 1,
               statsMax := some 1, statsMean := some 1 } : PlotSeries)) ∈ m := by
  have hp : prepareSignal [("A", [⟨0, 1⟩]), ("B", [⟨5, 2⟩])] 0 1 false "A" =
      some ("A", { timestamps := [0], values := [1], statsMin := some 1,
                   statsMax := some 1, statsMean := some 1 }) := by
    have h0 : filterWindow 0 1 [(⟨0, 1⟩ : Sample)] = [⟨0, 1⟩] := by decide
    have hs : stripPDU "A" = "A" := rfl
    have hl : List.lookup "A" [("A", [(⟨0, 1⟩ : Sample)]), ("B", [⟨5, 2⟩])]
        = some [⟨0, 1⟩] := rfl
    simp [prepareSignal, hs, hl, h0, normalizeVals, listMin, listMax, listMean]
  exact (prepare_skips_empty_fails_only_when_all_empty
      [("A", [⟨0, 1⟩]), ("B", [⟨5, 2⟩])] ["A", "B"] 0 1 false).2.2
    "A" (by decide) _ hp

/-- Claim C10: a custom time window with `start >= end` is rejected by
`plot_signals` before any preparation is started: the outcome is the
rejection warning, no `PlotterThread` is launched (no output mapping is
produced), and the stored series map is passed through unchanged. -/
theorem invalid_custom_window_rejected (store : Store) (valid : List String)
    (s e : ℚ) (h : s ≥ e) :
    plotSignalsGuard store valid (some (s, e)) =
      (.rejected "Start time must be less than end time!", store) := by
  simp [plotSignalsGuard, h]

/-- Witness for C10 at the concrete window `[5,3]`. -/
theorem invalid_custom_window_rejected_witness :
    plotSignalsGuard [] [] (some (5, 3)) =
      (.rejected "Start time must be less than end time!", []) :=
  invalid_custom_window_rejected [] [] 5 3 (by norm_num)

/-- Claim C1: in schema mode, a decoded value that `float(...)` cannot
convert is dropped (`continue`) and never appended: processing such an item
leaves every signal's stored sample list exactly as it was. (The recorded
diagnostic is the `print` on line 158, outside the data model.) -/
theorem non_numeric_value_never_stored (store : Store) (ts : ℚ)
    (msgName name : String) (v : PyValue) (h : toFloat v = none) (key : String) :
    samples (processDecodedItem ts msgName store (name, v)) key =
      samples store key := by
  rw [samples_processDecodedItem]
  simp [h]

/-- Witness for C1 at a concrete non-numeric item. -/
theorem non_numeric_value_never_stored_witness :
    samples (processDecodedItem 0 "M" [("M.S", [⟨0, 1⟩])] ("S", PyValue.nonNumeric))
        "M.S" =
      samples [("M.S", [⟨0, 1⟩])] "M.S" :=
  non_numeric_value_never_stored [("M.S", [⟨0, 1⟩])] 0 "M" "S" .nonNumeric rfl "M.S"

theorem lookup_appendEnsure (st : Store) (k : String) (smp : Sample) (k' : String) :
    (appendSample (ensureKey st k) k smp).lookup k' =
      if k' = k then some (samples st k ++ [smp]) else st.lookup k' := by
  have hens : (ensureKey st k).lookup k = some (samples st k) := by
    rw [lookup_ensureKey]; simp
  rw [lookup_appendSample _ _ _ _ hens k']
  by_cases h : k' = k
  · simp [h]
  · simp [h, lookup_ensureKey]

theorem samples_appendEnsure (st : Store) (k : String) (smp : Sample) (k' : String) :
    samples (appendSample (ensureKey st k) k smp) k' =
      if k' = k then samples st k' ++ [smp] else samples st k' := by
  unfold samples
  rw [lookup_appendEnsure]
  by_cases h : k' = k
  · subst h; simp [samples]
  · simp [h]

/-- No key of the store holds an empty sample list. -/
def StoreOk (st : Store) : Prop :=
  ∀ k l, st.lookup k = some l → l ≠ []

theorem storeOk_appendEnsure {st : Store} (hok : StoreOk st) (k : String)
    (smp : Sample) : StoreOk (appendSample (ensureKey st k) k smp) := by
  intro k' l hl
  rw [lookup_appendEnsure] at hl
  by_cases h : k' = k
  · rw [if_pos h] at hl
    have : l = samples st k ++ [smp] := by injection hl.symm
    subst this
    simp
  · rw [if_neg h] at hl
    exact hok k' l hl

theorem storeOk_processDecodedItem {st : Store} (hok : StoreOk st) (ts : ℚ)
    (m : String) (item : String × PyValue) (hv : toFloat item.2 ≠ none) :
    StoreOk (processDecodedItem ts m st item) := by
  unfold processDecodedItem
  cases hvv : toFloat item.2 with
  | none => exact absurd hvv hv
  | some q => exact storeOk_appendEnsure hok _ _

theorem storeOk_processItems (ts : ℚ) (m : String) :
    ∀ (items : List (String × PyValue)) (st : Store), StoreOk st →
      (∀ it ∈ items, toFloat it.2 ≠ none) →
      StoreOk (items.foldl (processDecodedItem ts m) st) := by
  intro items
  induction items with
  | nil => intro st hok _; exact hok
  | cons it rest ih =>
      intro st hok hall
      exact ih _ (storeOk_processDecodedItem hok ts m it (hall it (by simp)))
        fun x hx => hall x (by simp [hx])

theorem storeOk_processBytes (ident : Nat) (ts : ℚ) (data : List Nat) :
    ∀ (idxs : List Nat) (st : Store), StoreOk st →
      ∀ st', processBytes ident ts data idxs st = .ok st' → StoreOk st' := by
  intro idxs
  induction idxs with
  | nil =>
      intro st hok st' h
      have : st' = st := by
        simpa [processBytes] using h.symm
      subst this; exact hok
  | cons i rest ih =>
      intro st hok st' h
      unfold processBytes at h
      cases hg : data.get? i with
      | none => rw [hg] at h; cases h
      | some b =>
          rw [hg] at h
          exact ih _ (storeOk_appendEnsure hok _ _) st' h

theorem storeOk_loaderFrames (db : Option (Frame → DecodeResult)) (total : Nat) :
    ∀ (frames : List Frame) (st : Store) (p : Nat) (ps : List Nat), StoreOk st →
      (∀ f ∈ frames, ∀ d, db = some d → ∀ m items, d f = .decoded m items →
        ∀ it ∈ items, toFloat it.2 ≠ none) →
      ∀ st' ps', loaderFrames db total frames st p ps = .ok (st', ps') →
        StoreOk st' := by
  intro frames
  induction frames with
  | nil =>
      intro st p ps hok _ st' ps' h
      have : st' = st := by
        simp only [loaderFrames] at h
        injection h with h1
        exact (congrArg Prod.fst h1).symm
      subst this; exact hok
  | cons f rest ih =>
      intro st p ps hok hall st' ps' h
      unfold loaderFrames at h
      cases hds : decodeStep db st f with
      | error e => rw [hds] at h; cases h
      | ok st'' =>
          rw [hds] at h
          have hok'' : StoreOk st'' := by
            unfold decodeStep at hds
            cases db with
            | some d =>
                have hst'' : st'' = processFrameSchema st f.timestamp (d f) := by
                  simp only at hds
                  injection hds with h2
                  exact h2.symm
                subst hst''
                unfold processFrameSchema
                cases hd : d f with
                | noMessage => exact hok
                | decodeFailed => exact hok
                | decoded m items =>
                    exact storeOk_processItems f.timestamp m items st hok
                      (hall f (by simp) d rfl m items hd)
            | none =>
                exact storeOk_processBytes f.arbitration_id f.timestamp f.data
                  (List.range f.dlc) st hok st'' hds
          exact ih _ _ _ hok'' (fun g hg => hall g (by simp [hg])) st' ps' h

/-- The frame and decode result of the C2 counterexample: a message `M`
whose only decoded signal `S` carries a non-numeric value. -/
def cexFrame : Frame := ⟨0, 0x100, [1, 2], 2, 0, false, false⟩

/-- A schema handle whose `message.decode` yields one non-numeric value. -/
def cexDb : Frame → DecodeResult := fun _ => .decoded "M" [("S", .nonNumeric)]

/-- Counterexample to C2 as stated: the key `M.S` is created (line 153-154)
before the numeric check (lines 155-159), so when every decoded value of a
signal is non-numeric the emitted mapping contains that key with an empty
series — empty decodes are not omitted from the mapping. -/
theorem empty_series_kept_counterexample :
    loaderRun [cexFrame] (some cexDb) 0 = .ok ([cexFrame], [("M.S", [])], []) ∧
    List.lookup "M.S" [("M.S", ([] : List Sample))] = some [] :=
  ⟨rfl, rfl⟩

/-- Claim C2 (amended): a signal key present in the emitted mapping is
guaranteed a non-empty series only when every decoded value reaching it was
numeric; when a frame's decode yields a non-numeric value, the key is
created before the value is dropped, and a key whose values were all
non-numeric stays in the mapping with an empty series. -/
theorem series_nonempty_when_values_numeric (frames : List Frame)
    (db : Option (Frame → DecodeResult)) (total : Nat)
    (h : ∀ f ∈ frames, ∀ d, db = some d → ∀ m items, d f = .decoded m items →
      ∀ it ∈ items, toFloat it.2 ≠ none) :
    ∀ fs st ps, loaderRun frames db total = .ok (fs, st, ps) →
      ∀ k l, st.lookup k = some l → l ≠ [] := by
  intro fs st ps hrun k l hl
  unfold loaderRun at hrun
  cases hlf : loaderFrames db total frames [] 0 [] with
  | error e => rw [hlf] at hrun; cases hrun
  | ok pr =>
      rw [hlf] at hrun
      injection hrun with h1
      have hst : st = pr.1 := by
        have := congrArg Prod.fst (congrArg Prod.snd h1)
        simpa using this.symm
      subst hst
      have hok0 : StoreOk ([] : Store) := by
        intro k' l' hl'
        simp [List.lookup] at hl'
      exact storeOk_loaderFrames db total frames [] 0 [] hok0 h pr.1 pr.2
        (by rw [hlf]) k l hl

/-- Witness for the amended C2: a schema-less load (all values are raw
bytes, hence numeric) whose only stored series is non-empty. -/
theorem series_nonempty_when_values_numeric_witness :
    ([(⟨0, 7⟩ : Sample)] : List Sample) ≠ [] :=
  series_nonempty_when_values_numeric [⟨0, 3, [7], 1, 0, false, false⟩] none 0
    (by intro f hf d hd; cases hd)
    [⟨0, 3, [7], 1, 0, false, false⟩] [("ID_0x3.Byte0", [⟨0, 7⟩])] [] rfl
    "ID_0x3.Byte0" [⟨0, 7⟩] rfl

theorem loaderFrames_progress_bound (db : Option (Frame → DecodeResult))
    (total : Nat) :
    ∀ (frames : List Frame) (st : Store) (p : Nat) (ps : List Nat),
      (∀ v ∈ ps, v ≤ 100) →
      ∀ st' ps', loaderFrames db total frames st p ps = .ok (st', ps') →
        ∀ v ∈ ps', v ≤ 100 := by
  intro frames
  induction frames with
  | nil =>
      intro st p ps hps st' ps' h
      have : ps' = ps := by
        simp only [loaderFrames] at h
        injection h with h1
        exact (congrArg Prod.snd h1).symm
      subst this; exact hps
  | cons f rest ih =>
      intro st p ps hps st' ps' h
      unfold loaderFrames at h
      cases hds : decodeStep db st f with
      | error e => rw [hds] at h; cases h
      | ok st'' =>
          rw [hds] at h
          refine ih st'' (p + 1) _ ?_ st' ps' h
          intro v hv
          rcases List.mem_append.mp hv with hv1 | hv2
          · exact hps v hv1
          · by_cases ht : 0 < total
            · rw [if_pos ht] at hv2
              have : v = min 100 ((p + 1) * 100 / total) := by simpa using hv2
              subst this
              exact min_le_left _ _
            · rw [if_neg ht] at hv2
              cases hv2

theorem loaderFrames_progress_empty (db : Option (Frame → DecodeResult)) :
    ∀ (frames : List Frame) (st : Store) (p : Nat) (ps : List Nat),
      ∀ st' ps', loaderFrames db 0 frames st p ps = .ok (st', ps') → ps' = ps := by
  intro frames
  induction frames with
  | nil =>
      intro st p ps st' ps' h
      simp only [loaderFrames] at h
      injection h with h1
      exact (congrArg Prod.snd h1).symm
  | cons f rest ih =>
      intro st p ps st' ps' h
      unfold loaderFrames at h
      cases hds : decodeStep db st f with
      | error e => rw [hds] at h; cases h
      | ok st'' =>
          rw [hds] at h
          simp only [lt_irrefl, if_false, List.append_nil] at h
          exact ih st'' (p + 1) ps st' ps' h

theorem loaderFrames_total_irrelevant (db : Option (Frame → DecodeResult))
    (t₁ t₂ : Nat) :
    ∀ (frames : List Frame) (st : Store) (p : Nat) (ps₁ ps₂ : List Nat),
      (loaderFrames db t₁ frames st p ps₁).map Prod.fst =
        (loaderFrames db t₂ frames st p ps₂).map Prod.fst := by
  intro frames
  induction frames with
  | nil => intro st p ps₁ ps₂; simp [loaderFrames, Except.map]
  | cons f rest ih =>
      intro st p ps₁ ps₂
      unfold loaderFrames
      cases hds : decodeStep db st f with
      | error e => simp
      | ok st'' => exact ih st'' (p + 1) _ _

/-- Claim C9: every emitted progress value is a (non-negative) integer at
most 100, no matter how inaccurate the line-count estimate is; with a zero
(or unavailable, modelled as zero per lines 128-129) estimate no progress
is emitted at all; and the estimate never influences the produced frame
table or series map (it is used only inside the progress computation). -/
theorem progress_in_range_and_estimate_irrelevant (frames : List Frame)
    (db : Option (Frame → DecodeResult)) (total total' : Nat) :
    (∀ fs st ps, loaderRun frames db total = .ok (fs, st, ps) →
      (∀ v ∈ ps, v ≤ 100) ∧ (total = 0 → ps = []))
    ∧ (loaderRun frames db total).map (fun r => (r.1, r.2.1)) =
        (loaderRun frames db total').map (fun r => (r.1, r.2.1)) := by
  constructor
  · intro fs st ps hrun
    unfold loaderRun at hrun
    cases hlf : loaderFrames db total frames [] 0 [] with
    | error e => rw [hlf] at hrun; cases hrun
    | ok pr =>
        rw [hlf] at hrun
        injection hrun with h1
        have hps : ps = pr.2 := by
          have := congrArg Prod.snd (congrArg Prod.snd h1)
          simpa using this.symm
        subst hps
        constructor
        · exact loaderFrames_progress_bound db total frames [] 0 []
            (by intro v hv; cases hv) pr.1 pr.2 (by rw [hlf])
        · intro h0
          subst h0
          exact loaderFrames_progress_empty db frames [] 0 [] pr.1 pr.2 (by rw [hlf])
  · have h := loaderFrames_total_irrelevant db total total' frames [] 0 [] []
    unfold loaderRun
    cases h1 : loaderFrames db total frames [] 0 [] with
    | error e =>
        cases h2 : loaderFrames db total' frames [] 0 [] with
        | error e' =>
            rw [h1, h2] at h
            simp only [Except.map] at h
            injection h with h3
            subst h3
            simp
        | ok pr => rw [h1, h2] at h; simp [Except.map] at h
    | ok pr =>
        cases h2 : loaderFrames db total' frames [] 0 [] with
        | error e' => rw [h1, h2] at h; simp [Except.map] at h
        | ok pr' =>
            rw [h1, h2] at h
            simp only [Except.map] at h
            injection h with h3
            simp [h3, Except.map]

/-- Witness for C9: one frame, estimate 1 (vs 0): the only progress value
is 100, and with a zero estimate the progress list would be empty. -/
theorem progress_in_range_witness :
    (∀ v ∈ [100], v ≤ 100) ∧ ((1 : Nat) = 0 → [100] = ([] : List Nat)) :=
  (progress_in_range_and_estimate_irrelevant [⟨0, 3, [7], 1, 0, false, false⟩]
      none 1 0).1
    [⟨0, 3, [7], 1, 0, false, false⟩] [("ID_0x3.Byte0", [⟨0, 7⟩])] [100] rfl

theorem processBytes_characterization (ident : Nat) (ts : ℚ) (data : List Nat) :
    ∀ (idxs : List Nat) (st : Store), (∀ i ∈ idxs, i < data.length) →
      ∃ st', processBytes ident ts data idxs st = .ok st' ∧
        ∀ k, samples st' k = samples st k ++
          (idxs.filter (fun i => byteKey ident i == k)).map
            (fun i => ⟨ts, (data.getD i 0 : ℚ)⟩) := by
  intro idxs
  induction idxs with
  | nil =>
      intro st _
      exact ⟨st, rfl, by simp⟩
  | cons i rest ih =>
      intro st hb
      have hi : i < data.length := hb i (by simp)
      have hget : data.get? i = some (data.getD i 0) := by
        rw [List.getD_eq_getElem data 0 hi]
        exact List.get?_eq_get hi
      obtain ⟨st', hok, hchar⟩ :=
        ih (appendSample (ensureKey st (byteKey ident i)) (byteKey ident i)
            ⟨ts, (data.getD i 0 : ℚ)⟩)
          (fun j hj => hb j (by simp [hj]))
      refine ⟨st', ?_, ?_⟩
      · unfold processBytes
        rw [hget]
        exact hok
      · intro k
        rw [hchar k, samples_appendEnsure]
        by_cases hk : byteKey ident i = k
        · have hbeq : (byteKey ident i == k) = true := beq_iff_eq.mpr hk
          simp only [List.filter_cons, hbeq, if_pos (hk.symm), List.map_cons]
          rw [List.append_assoc]
          rfl
        · have hbeq : (byteKey ident i == k) = false := beq_eq_false_iff_ne.mpr hk
          have hk' : ¬ k = byteKey ident i := fun hh => hk hh.symm
          simp only [List.filter_cons, hbeq, if_neg hk']
          simp

theorem filter_range_byteKey (ident : Nat) :
    ∀ n i : Nat, i < n →
      (List.range n).filter (fun j => byteKey ident j == byteKey ident i) = [i] := by
  intro n
  induction n with
  | zero => intro i hi; omega
  | succ n ih =>
      intro i hi
      rw [List.range_succ, List.filter_append]
      by_cases h : i = n
      · subst h
        have h1 : (List.range i).filter
            (fun j => byteKey ident j == byteKey ident i) = [] := by
          rw [List.filter_eq_nil_iff]
          intro j hj
          have hji : j < i := List.mem_range.mp hj
          intro hbeq
          have : j = i := byteKey_inj (beq_iff_eq.mp hbeq)
          omega
        rw [h1]
        simp
      · have hin : i < n := by omega
        rw [ih i hin]
        have h2 : [n].filter (fun j => byteKey ident j == byteKey ident i) = [] := by
          rw [List.filter_eq_nil_iff]
          intro j hj
          have : j = n := by simpa using hj
          subst this
          intro hbeq
          exact h (byteKey_inj (beq_iff_eq.mp hbeq)).symm
        rw [h2, List.append_nil]

/-- Claim C6: decoding a frame without a schema appends exactly one sample
per payload byte index `i` in `[0, dlc)` — under the key
`ID_0x<hex id>.Byte<i>`, with the raw byte at index `i` as its value and no
scaling — and touches no other series. -/
theorem schemaless_one_sample_per_byte (st : Store) (f : Frame)
    (h : f.dlc ≤ f.data.length) :
    ∃ st', processFrameRaw st f = .ok st'
      ∧ (∀ i, i < f.dlc →
          samples st' (byteKey f.arbitration_id i) =
            samples st (byteKey f.arbitration_id i)
              ++ [⟨f.timestamp, (f.data.getD i 0 : ℚ)⟩])
      ∧ (∀ k, (∀ i, i < f.dlc → k ≠ byteKey f.arbitration_id i) →
          samples st' k = samples st k) := by
  obtain ⟨st', hok, hchar⟩ :=
    processBytes_characterization f.arbitration_id f.timestamp f.data
      (List.range f.dlc) st
      (fun i hi => lt_of_lt_of_le (List.mem_range.mp hi) h)
  refine ⟨st', hok, ?_, ?_⟩
  · intro i hi
    rw [hchar]
    rw [filter_range_byteKey f.arbitration_id f.dlc i hi]
    rfl
  · intro k hk
    rw [hchar]
    have hnil : (List.range f.dlc).filter
        (fun j => byteKey f.arbitration_id j == k) = [] := by
      rw [List.filter_eq_nil_iff]
      intro j hj hbeq
      exact hk j (List.mem_range.mp hj) (beq_iff_eq.mp hbeq).symm
    rw [hnil]
    simp

/-- Witness for C6: a two-byte frame with id `0x1A` produces exactly the
two series `ID_0x1A.Byte0 = [(0, 7)]` and `ID_0x1A.Byte1 = [(0, 9)]`. -/
theorem schemaless_one_sample_per_byte_witness :
    (2 : Nat) ≤ 2 ∧
    ∃ st', processFrameRaw [] (⟨0, 0x1A, [7, 9], 2, 0, false, false⟩ : Frame) = .ok st'
      ∧ (∀ i, i < 2 →
          samples st' (byteKey 0x1A i) =
            samples ([] : Store) (byteKey 0x1A i)
              ++ [⟨0, (([7, 9].getD i 0 : Nat) : ℚ)⟩])
      ∧ (∀ k, (∀ i, i < 2 → k ≠ byteKey 0x1A i) →
          samples st' k = samples ([] : Store) k) :=
  ⟨by norm_num,
    schemaless_one_sample_per_byte [] ⟨0, 0x1A, [7, 9], 2, 0, false, false⟩
      (by norm_num)⟩

theorem mem_allTimestamps_aux (store : Store) :
    ∀ (sel : List String) (acc : List ℚ) (t : ℚ),
      (t ∈ sel.foldl
          (fun acc sig => acc ++ (seriesOf store sig).map Sample.timestamp) acc) ↔
        t ∈ acc ∨ ∃ sig ∈ sel, t ∈ (seriesOf store sig).map Sample.timestamp := by
  intro sel
  induction sel with
  | nil => intro acc t; simp
  | cons s rest ih =>
      intro acc t
      rw [List.foldl_cons, ih]
      simp only [List.mem_append, List.mem_cons]
      constructor
      · rintro (⟨h1 | h2⟩ | ⟨sig, hsig, hmem⟩)
        · exact Or.inl h1
        · exact Or.inr ⟨s, Or.inl rfl, h2⟩
        · exact Or.inr ⟨sig, Or.inr hsig, hmem⟩
      · rintro (h1 | ⟨sig, hs | hsig, hmem⟩)
        · exact Or.inl (Or.inl h1)
        · subst hs; exact Or.inl (Or.inr hmem)
        · exact Or.inr ⟨sig, hsig, hmem⟩

theorem mem_allTimestamps (store : Store) (sel : List String) (t : ℚ) :
    t ∈ allTimestamps store sel ↔
      ∃ sig ∈ sel, t ∈ (seriesOf store sig).map Sample.timestamp := by
  unfold allTimestamps
  rw [mem_allTimestamps_aux]
  simp

/-- Claim C3: when a custom window yields zero filtered data for every
selected signal but some selected signal has data, `plot_signals`
substitutes the full-range window — the minimum and maximum timestamp over
the union of the selected signals' series — exactly once (the substitution
in `resolveCustomWindow` is a straight-line branch, not a loop or
recursion), and re-filtering with that window succeeds with a non-empty
result instead of failing. -/
theorem custom_window_fallback_full_range (store : Store) (valid : List String)
    (s e : ℚ) (n : Bool)
    (hclean : ∀ sig ∈ valid, stripPDU sig = sig)
    (hzero : ∀ sig ∈ valid, filterWindow s e (seriesOf store sig) = [])
    (hsome : ∃ sig ∈ valid, seriesOf store sig ≠ []) :
    ∃ lo hi, resolveCustomWindow store valid s e = some (lo, hi)
      ∧ lo ∈ allTimestamps store valid
      ∧ hi ∈ allTimestamps store valid
      ∧ (∀ t ∈ allTimestamps store valid, lo ≤ t ∧ t ≤ hi)
      ∧ ∃ m, plotterRunWindowed store valid lo hi n = .ok m ∧ m ≠ [] := by
  obtain ⟨sig₀, hsig₀, hne₀⟩ := hsome
  -- the union of timestamps is non-empty
  have hts : ∃ t, t ∈ allTimestamps store valid := by
    obtain ⟨smp, hsmp⟩ := List.exists_mem_of_ne_nil _ hne₀
    exact ⟨smp.timestamp, (mem_allTimestamps store valid smp.timestamp).mpr
      ⟨sig₀, hsig₀, List.mem_map_of_mem Sample.timestamp hsmp⟩⟩
  obtain ⟨x, xs, hx⟩ := List.exists_cons_of_ne_nil
    (show allTimestamps store valid ≠ [] by
      obtain ⟨t, ht⟩ := hts
      intro hnil
      rw [hnil] at ht
      cases ht)
  -- the hasData check is false
  have hany : valid.any
      (fun sig => !(filterWindow s e (seriesOf store sig)).isEmpty) = false := by
    rw [List.any_eq_false]
    intro sig hsig
    rw [hzero sig hsig]
    simp
  have hres : resolveCustomWindow store valid s e =
      some (xs.foldl min x, xs.foldl max x) := by
    unfold resolveCustomWindow
    rw [hany, hx]
    simp
  refine ⟨xs.foldl min x, xs.foldl max x, hres, ?_, ?_, ?_, ?_⟩
  · rw [hx]; exact foldl_min_mem xs x
  · rw [hx]; exact foldl_max_mem xs x
  · intro t ht
    rw [hx] at ht
    exact ⟨foldl_min_le_mem xs x t ht, mem_le_foldl_max xs x t ht⟩
  · -- sig₀'s whole series survives the full-range filter
    obtain ⟨d, hd⟩ : ∃ d, store.lookup sig₀ = some d := by
      cases hl : store.lookup sig₀ with
      | none =>
          exfalso
          apply hne₀
          unfold seriesOf
          rw [hl]
          rfl
      | some d => exact ⟨d, rfl⟩
    have hdser : seriesOf store sig₀ = d := by
      unfold seriesOf
      rw [hd]
      rfl
    have hdne : d ≠ [] := hdser ▸ hne₀
    have hfull : filterWindow (xs.foldl min x) (xs.foldl max x) d = d := by
      unfold filterWindow
      rw [List.filter_eq_self]
      intro smp hsmp
      have hmem : smp.timestamp ∈ allTimestamps store valid :=
        (mem_allTimestamps store valid smp.timestamp).mpr
          ⟨sig₀, hsig₀, hdser ▸ List.mem_map_of_mem Sample.timestamp hsmp⟩
      rw [hx] at hmem
      have h1 : xs.foldl min x ≤ smp.timestamp := foldl_min_le_mem xs x _ hmem
      have h2 : smp.timestamp ≤ xs.foldl max x := mem_le_foldl_max xs x _ hmem
      simp [h1, h2]
    obtain ⟨y, ys, hdy⟩ := List.exists_cons_of_ne_nil hdne
    have hlk : store.lookup (stripPDU sig₀) = some d := by
      rw [hclean sig₀ hsig₀]; exact hd
    have hp : prepareSignal store (xs.foldl min x) (xs.foldl max x) n sig₀ =
        some (stripPDU sig₀,
          { timestamps := (y :: ys).map Sample.timestamp
            values := normalizeVals n ((y :: ys).map Sample.value)
            statsMin := listMin (normalizeVals n ((y :: ys).map Sample.value))
            statsMax := listMax (normalizeVals n ((y :: ys).map Sample.value))
            statsMean := listMean (normalizeVals n ((y :: ys).map Sample.value)) }) := by
      simp [prepareSignal, hlk, hfull.trans hdy]
    set p := (stripPDU sig₀,
      ({ timestamps := (y :: ys).map Sample.timestamp
         values := normalizeVals n ((y :: ys).map Sample.value)
         statsMin := listMin (normalizeVals n ((y :: ys).map Sample.value))
         statsMax := listMax (normalizeVals n ((y :: ys).map Sample.value))
         statsMean := listMean (normalizeVals n ((y :: ys).map Sample.value)) }
        : PlotSeries)) with hpdef
    have hmemp : p ∈ valid.filterMap
        (prepareSignal store (xs.foldl min x) (xs.foldl max x) n) :=
      List.mem_filterMap.mpr ⟨sig₀, hsig₀, hp⟩
    cases hfm : valid.filterMap
        (prepareSignal store (xs.foldl min x) (xs.foldl max x) n) with
    | nil => rw [hfm] at hmemp; cases hmemp
    | cons z zs =>
        refine ⟨z :: zs, ?_, by simp⟩
        simp [plotterRunWindowed, hfm]

/-- Witness for C3: signal `A` has data only at timestamps 0 and 1; the
custom window `[10,20]` is empty for it, so the fallback substitutes
`[0,1]` and the preparation succeeds. -/
theorem custom_window_fallback_witness :
    ∃ lo hi, resolveCustomWindow [("A", [⟨0, 1⟩, ⟨1, 2⟩])] ["A"] 10 20
        = some (lo, hi)
      ∧ lo ∈ allTimestamps [("A", [⟨0, 1⟩, ⟨1, 2⟩])] ["A"]
      ∧ hi ∈ allTimestamps [("A", [⟨0, 1⟩, ⟨1, 2⟩])] ["A"]
      ∧ (∀ t ∈ allTimestamps [("A", [⟨0, 1⟩, ⟨1, 2⟩])] ["A"], lo ≤ t ∧ t ≤ hi)
      ∧ ∃ m, plotterRunWindowed [("A", [⟨0, 1⟩, ⟨1, 2⟩])] ["A"] lo hi false
          = .ok m ∧ m ≠ [] :=
  custom_window_fallback_full_range [("A", [⟨0, 1⟩, ⟨1, 2⟩])] ["A"] 10 20 false
    (by decide) (by decide) (by decide)

theorem sample_mem_preserved (ts : ℚ) (m : String) (item : String × PyValue)
    (st : Store) (k : String) (x : Sample) (hx : x ∈ samples st k) :
    x ∈ samples (processDecodedItem ts m st item) k := by
  rw [samples_processDecodedItem]
  cases toFloat item.2 with
  | none => exact hx
  | some q =>
      show x ∈
        if k = m ++ "." ++ item.1 then samples st k ++ [⟨ts, q⟩] else samples st k
      by_cases h : k = m ++ "." ++ item.1
      · rw [if_pos h]
        exact List.mem_append_left _ hx
      · rw [if_neg h]
        exact hx

theorem sample_mem_preserved_foldl (ts : ℚ) (m : String) :
    ∀ (items : List (String × PyValue)) (st : Store) (k : String) (x : Sample),
      x ∈ samples st k →
      x ∈ samples (items.foldl (processDecodedItem ts m) st) k := by
  intro items
  induction items with
  | nil => intro st k x hx; exact hx
  | cons it rest ih =>
      intro st k x hx
      exact ih _ k x (sample_mem_preserved ts m it st k x hx)

theorem sample_mem_of_item_mem (ts : ℚ) (m : String) :
    ∀ (items : List (String × PyValue)) (st : Store) (name : String) (q : ℚ),
      (name, PyValue.num q) ∈ items →
      (⟨ts, q⟩ : Sample) ∈
        samples (items.foldl (processDecodedItem ts m) st) (m ++ "." ++ name) := by
  intro items
  induction items with
  | nil => intro st name q h; cases h
  | cons it rest ih =>
      intro st name q h
      rcases List.mem_cons.mp h with heq | hmem
      · subst heq
        apply sample_mem_preserved_foldl ts m rest
        rw [samples_processDecodedItem]
        simp [toFloat]
      · exact ih _ name q hmem

/-- Claim C8 (the bit extraction is performed by the external `cantools`
library and is modelled from the spec, see `decodeSignal`): a signal whose
bit range exceeds the frame's payload contributes nothing to the decoded
item dict — the dict is exactly the one obtained without that signal, so
decoding of the frame's other signals is not aborted — and every other
signal whose range fits is still decoded as `raw * scale + offset` and its
sample is stored into its own series. -/
theorem truncated_signal_skipped_others_stored (data : List Nat)
    (t : SignalSchema) (l₁ l₂ : List SignalSchema)
    (h : 8 * data.length < t.start_bit + t.bit_length) :
    decodeMessage data (l₁ ++ t :: l₂) = decodeMessage data (l₁ ++ l₂)
    ∧ ∀ (st : Store) (ts : ℚ) (m : String) (u : SignalSchema), u ∈ l₁ ++ l₂ →
        u.start_bit + u.bit_length ≤ 8 * data.length →
        (⟨ts, (rawValue data u : ℚ) * u.scale + u.offset⟩ : Sample) ∈
          samples (processFrameSchema st ts
            (.decoded m (decodeMessage data (l₁ ++ t :: l₂)))) (m ++ "." ++ u.name) := by
  have ht : decodeSignal data t = none := by
    unfold decodeSignal
    rw [if_neg (by omega)]
  have hdec : decodeMessage data (l₁ ++ t :: l₂) = decodeMessage data (l₁ ++ l₂) := by
    unfold decodeMessage
    rw [List.filterMap_append, List.filterMap_append, List.filterMap_cons, ht]
  refine ⟨hdec, ?_⟩
  intro st ts m u hu hfits
  have hitem : (u.name, PyValue.num ((rawValue data u : ℚ) * u.scale + u.offset)) ∈
      decodeMessage data (l₁ ++ l₂) := by
    unfold decodeMessage
    refine List.mem_filterMap.mpr ⟨u, hu, ?_⟩
    unfold decodeSignal
    rw [if_pos hfits]
  rw [hdec]
  exact sample_mem_of_item_mem ts m (decodeMessage data (l₁ ++ l₂)) st u.name _ hitem

/-- Witness for C8: a 2-byte payload; signal `T` needs bits `[16,24)` and is
skipped, while signal `U` (bits `[0,8)`, scale 1, offset 0) is decoded and
its sample stored under `M.U`. -/
theorem truncated_signal_skipped_witness :
    (⟨0, (rawValue [1, 2] ⟨"U", 0, 8, 1, 0⟩ : ℚ) * (1 : ℚ) + 0⟩ : Sample) ∈
      samples (processFrameSchema [] 0
        (.decoded "M" (decodeMessage [1, 2]
          ([⟨"U", 0, 8, 1, 0⟩] ++ (⟨"T", 16, 8, 1, 0⟩ : SignalSchema) :: []))))
        ("M" ++ "." ++ "U") :=
  (truncated_signal_skipped_others_stored [1, 2] ⟨"T", 16, 8, 1, 0⟩
      [⟨"U", 0, 8, 1, 0⟩] [] (by norm_num)).2
    [] 0 "M" ⟨"U", 0, 8, 1, 0⟩ (by simp) (by norm_num)

end CanAnalyzer
